import Mathlib

/-
Verification of the VF-Digital fingerprint store and search engine.

The repository (src/utils/database.py, src/utils/video_utils.py) is shallowly
embedded below.  Machine floats are modelled by exact rationals; the Sobel
gradient primitives are an external image-processing capability (spec section 1),
so frames enter the descriptor extractor as per-pixel magnitude/orientation
grids.  Fallible file reads are modelled with Option/Except.
-/

namespace VFDigital

/-- A fingerprint vector: 8 block centroids per frame (2 rows x 4 cols,
row-major), as produced by extract_fingerprint. -/
abbrev Fp : Type := Fin 8 → ℚ

/-- Sum of squared componentwise differences of two fingerprint rows
(the 8 scalar contributions of one row of diff\x2a\x2a2). -/
def rowSqDiff (a b : Fp) : ℚ := ∑ j : Fin 8, (a j - b j) ^ 2

/-- Total of squared elementwise differences over corresponding rows of the
window and the query (the full sum of diff\x2a\x2a2 in search). -/
def sqDiffTotal : List Fp → List Fp → ℚ
  | a :: as, b :: bs => rowSqDiff a b + sqDiffTotal as bs
  | _, _ => 0

/-- Embeds "score = np.mean(diff\x2a\x2a2)" from VideoDatabase.search: the sum of
all squared elementwise differences divided by the element count K*8,
where K is the query length. -/
def score (w q : List Fp) : ℚ := sqDiffTotal w q / ((q.length * 8 : ℕ) : ℚ)

/-- Embeds the slice db_fps[i : i + K]. -/
def window (dbFps : List Fp) (i K : ℕ) : List Fp := (dbFps.drop i).take K

/-- Score of the window of dbFps at offset i against the query q. -/
def winScore (dbFps q : List Fp) (i : ℕ) : ℚ := score (window dbFps i q.length) q

/-- A match result: video name, start offset in seconds, dissimilarity score. -/
structure Match where
  video : String
  startTime : ℚ
  score : ℚ
deriving DecidableEq

/-- One catalogue record as seen by search: the display name from metadata and
the result of loading the fingerprint file (none when the file is unreadable,
in which case np.load raises). -/
structure Entry where
  name : String
  seq : Option (List Fp)
deriving DecidableEq

/-- Embeds "score < lowest_score" where lowest_score is infinity while no
match has been recorded yet. -/
def ltLowest (s : ℚ) : Option Match → Bool
  | none => true
  | some m => decide (s < m.score)

/-- Embeds "lowest_score < c" (false while lowest_score is infinity). -/
def lowestLt : Option Match → ℚ → Bool
  | none, _ => false
  | some m, c => decide (m.score < c)

/-- Embeds the inner sliding-window loop of VideoDatabase.search over the
given list of offsets, threaded with the running best match.  Also returns
the list of offsets whose window score was actually evaluated, in evaluation
order, to reason about the early-exit policy. -/
def scanOffsetsTr (vname : String) (dbFps q : List Fp) :
    List ℕ → Option Match → Option Match × List ℕ
  | [], best => (best, [])
  | i :: rest, best =>
    let s := winScore dbFps q i
    if ltLowest s best then
      let b : Option Match := some { video := vname, startTime := (i : ℚ) / 10, score := s }
      if s < (1 / 100 : ℚ) then
        (b, [i])
      else
        let r := scanOffsetsTr vname dbFps q rest b
        (r.1, i :: r.2)
    else
      let r := scanOffsetsTr vname dbFps q rest best
      (r.1, i :: r.2)

/-- Embeds the outer loop of VideoDatabase.search over the catalogue entries.
The index v numbers entries from the given starting position so the trace can
name which video each evaluated offset belongs to.  An unreadable fingerprint
file makes np.load raise, aborting the whole search (Except.error). -/
def searchGoTr (q : List Fp) :
    List Entry → ℕ → Option Match → Except Unit (Option Match) × List (ℕ × ℕ)
  | [], _, best => (Except.ok best, [])
  | e :: rest, v, best =>
    match e.seq with
    | none => (Except.error (), [])
    | some dbFps =>
      if dbFps.length < q.length then
        searchGoTr q rest (v + 1) best
      else
        let r := scanOffsetsTr e.name dbFps q (List.range (dbFps.length - q.length + 1)) best
        let tagged := r.2.map (fun i => (v, i))
        if lowestLt r.1 (1 / 100) then
          (Except.ok r.1, tagged)
        else
          let r2 := searchGoTr q rest (v + 1) r.1
          (r2.1, tagged ++ r2.2)

/-- The best match tracked by VideoDatabase.search just before the final
threshold test. -/
def searchBest (entries : List Entry) (q : List Fp) : Except Unit (Option Match) :=
  (searchGoTr q entries 0 none).1

/-- The (video index, offset) pairs whose window score search evaluates, in
evaluation order. -/
def searchTrace (entries : List Entry) (q : List Fp) : List (ℕ × ℕ) :=
  (searchGoTr q entries 0 none).2

/-- Embeds VideoDatabase.search: scan all entries, then return the best match
only if one was found and its score is strictly below the threshold. -/
def search (entries : List Entry) (q : List Fp) (threshold : ℚ) :
    Except Unit (Option Match) :=
  (searchBest entries q).map (fun best =>
    match best with
    | some m => if m.score < threshold then some m else none
    | none => none)

/-- Per-frame gradient data for the descriptor extractor: frame dimensions and
the per-pixel gradient magnitude and orientation grids.  The Sobel gradient,
magnitude and atan2 primitives are an external image-processing capability
(spec section 1), so extract_fingerprint is embedded from the point where it
consumes the magnitude and orientation arrays.  The scalar type is a parameter
so the pipeline runs on exact rationals while bounds involving pi can be
stated over the reals. -/
structure GradFrame (α : Type) where
  H : ℕ
  W : ℕ
  mag : ℕ → ℕ → α
  ori : ℕ → ℕ → α

/-- Embeds "denominator = np.sum(mag_block)" for the block at grid row n,
grid column m; block height is H // 2 and block width is W // 4, remainder
rows and columns dropped. -/
def blockMagSum {α : Type} [Field α] (fr : GradFrame α) (n m : ℕ) : α :=
  ∑ y in Finset.Ico (n * (fr.H / 2)) ((n + 1) * (fr.H / 2)),
    ∑ x in Finset.Ico (m * (fr.W / 4)) ((m + 1) * (fr.W / 4)), fr.mag y x

/-- Embeds "numerator = np.sum(mag_block * ori_block)" for the block at grid
row n, grid column m. -/
def blockMagOriSum {α : Type} [Field α] (fr : GradFrame α) (n m : ℕ) : α :=
  ∑ y in Finset.Ico (n * (fr.H / 2)) ((n + 1) * (fr.H / 2)),
    ∑ x in Finset.Ico (m * (fr.W / 4)) ((m + 1) * (fr.W / 4)),
      fr.mag y x * fr.ori y x

/-- Embeds the centroid computation of extract_fingerprint: 0.0 when the
denominator is zero, otherwise numerator / denominator. -/
def blockCentroid {α : Type} [Field α] [DecidableEq α] (fr : GradFrame α) (n m : ℕ) : α :=
  if blockMagSum fr n m = 0 then 0 else blockMagOriSum fr n m / blockMagSum fr n m

/-- The fingerprint vector of one frame: the 8 block centroids in row-major
grid order (j = n * 4 + m for grid row n in 0..1 and grid column m in 0..3),
matching the append order of the two nested block loops. -/
def frameFingerprint {α : Type} [Field α] [DecidableEq α] (fr : GradFrame α) : Fin 8 → α :=
  fun j => blockCentroid fr (j.val / 4) (j.val % 4)

/-- Embeds extract_fingerprint over a stack of frames (empty in, empty out). -/
def extractFingerprint (frames : List (GradFrame ℚ)) : List Fp :=
  frames.map frameFingerprint

/-- One catalogue record of metadata.json. -/
structure MetaRecord where
  name : String
  original_path : String
  frames : ℕ
  duration_sec : ℚ
deriving DecidableEq

/-- The fingerprint store: the fingerprints folder (id to saved N x 8 array)
and the metadata catalogue (id to record, insertion ordered). -/
structure DB where
  files : List (String × List Fp)
  metadata : List (String × MetaRecord)
deriving DecidableEq

/-- Embeds VideoDatabase.add_video.  The frame sampler is an external
collaborator, so its output arrives as an argument: none models a source that
could not be opened, and an empty list a source yielding zero frames; in both
cases add_video returns without touching the store.  The uuid4 value is the
freshId argument.  The Python function falls off the end without a return
statement, so the returned value (second component) is always none. -/
def addVideo (db : DB) (framesOpt : Option (List (GradFrame ℚ)))
    (freshId videoName videoPath : String) : DB × Option String :=
  match framesOpt with
  | none => (db, none)
  | some frames =>
    if frames.length = 0 then (db, none)
    else
      let fps := extractFingerprint frames
      let db1 : DB :=
        { files := db.files ++ [(freshId, fps)],
          metadata := db.metadata ++
            [(freshId,
              { name := videoName, original_path := videoPath,
                frames := fps.length,
                duration_sec := (fps.length : ℚ) / 10 })] }
      (db1, none)

/-- Reading the fingerprint-sequence file of the given id (np.load on the
path derived from the id): not-found error when no file is stored under it. -/
def loadSequence (db : DB) (id : String) : Except Unit (List Fp) :=
  match db.files.lookup id with
  | some s => Except.ok s
  | none => Except.error ()

/-- Modelled from the spec: the repository has no remove operation anywhere
under src/ (VideoDatabase has only add_video, search and _save_metadata), so
this is the first deletion step of the remove(id) contract of spec section
4.3: delete the catalogue record. -/
def removeCatalogueRecord (db : DB) (id : String) : DB :=
  { db with metadata := db.metadata.filter (fun p => p.1 != id) }

/-- Modelled from the spec: the second deletion step of the remove(id)
contract of spec section 4.3: delete the backing fingerprint file. -/
def removeFingerprintFile (db : DB) (id : String) : DB :=
  { db with files := db.files.filter (fun p => p.1 != id) }

/-- Modelled from the spec: remove(id) per spec section 4.3, absent from
src/: delete the catalogue record first, then the backing file. -/
def removeVideo (db : DB) (id : String) : DB :=
  removeFingerprintFile (removeCatalogueRecord db id) id

/-! Concrete data used by witnesses and counterexamples. -/

/-- The all-zero fingerprint vector (a perfectly flat frame). -/
def fp0 : Fp := fun _ => 0

/-- A fingerprint vector with every centroid 1. -/
def fp1 : Fp := fun _ => 1

/-- A fingerprint vector whose squared distance to fp0 sums to 16/5, so a
one-row window scores exactly (16/5)/8 = 2/5, the default threshold. -/
def fpB : Fp := fun j => if j.val = 0 then 8 / 5 else if j.val = 1 then 4 / 5 else 0

/-- The synthetic static-gray catalogue of spec section 8: one stored video
"Clip A" of 50 all-zero fingerprint vectors. -/
def grayEntries : List Entry :=
  [{ name := "Clip A", seq := some (List.replicate 50 fp0) }]

/-- Frames 10 to 20 of the static-gray sequence as the query (K = 10,
true offset 10 frames = 1.0 seconds). -/
def grayQuery : List Fp := window (List.replicate 50 fp0) 10 10

/-- An empty store. -/
def db0 : DB := { files := [], metadata := [] }

/-- A 4 x 8 uniform-intensity frame over the rationals: zero gradient
magnitude and orientation everywhere. -/
def gf0 : GradFrame ℚ := { H := 4, W := 8, mag := fun _ _ => 0, ori := fun _ _ => 0 }

/-- A 4 x 8 uniform-intensity frame over the reals. -/
def gfR0 : GradFrame ℝ := { H := 4, W := 8, mag := fun _ _ => 0, ori := fun _ _ => 0 }

/-! Basic lemmas about the score. -/

/-- A row compared with itself contributes nothing. -/
lemma rowSqDiff_self (a : Fp) : rowSqDiff a a = 0 := by
  simp [rowSqDiff]

/-- A window compared with itself has zero total squared difference. -/
lemma sqDiffTotal_self : ∀ w : List Fp, sqDiffTotal w w = 0
  | [] => rfl
  | a :: t => by simp [sqDiffTotal, rowSqDiff_self, sqDiffTotal_self t]

/-- A window compared with itself scores zero. -/
lemma score_self (w : List Fp) : score w w = 0 := by
  simp [score, sqDiffTotal_self]

/-- The window at offset i has length K whenever i + K fits in the sequence. -/
lemma length_window (s : List Fp) (i K : ℕ) (h : i + K ≤ s.length) :
    (window s i K).length = K := by
  simp [window]
  omega

/-- The sum of rowwise squared differences of two length-K vectors of rows. -/
lemma sqDiffTotal_ofFn : ∀ (K : ℕ) (w q : Fin K → Fp),
    sqDiffTotal (List.ofFn w) (List.ofFn q) = ∑ i : Fin K, rowSqDiff (w i) (q i)
  | 0, _, _ => by simp [sqDiffTotal]
  | K + 1, w, q => by
    rw [List.ofFn_succ, List.ofFn_succ]
    show rowSqDiff (w 0) (q 0) + sqDiffTotal _ _ = _
    rw [sqDiffTotal_ofFn K (fun i => w i.succ) (fun i => q i.succ), Fin.sum_univ_succ]

/-- C1: the dissimilarity score computed by search on a window of length
K >= 1 and a query of length K is the mean of the squared elementwise
differences between the window and the query, taken over all K*8 scalar
components: per-element MSE with denominator K*8 and no square root. -/
theorem C1_score_is_per_element_mse (K : ℕ) (_hK : 1 ≤ K) (w q : Fin K → Fp) :
    score (List.ofFn w) (List.ofFn q) =
      (∑ p : Fin K × Fin 8, (w p.1 p.2 - q p.1 p.2) ^ 2) / ((K * 8 : ℕ) : ℚ) := by
  rw [score, sqDiffTotal_ofFn, List.length_ofFn]
  congr 1
  rw [Fintype.sum_prod_type]
  simp [rowSqDiff]

/-- Witness for C1 at K = 1 with concrete rows: hypothesis 1 <= 1 holds and
the score of the all-ones window against the all-zero query is 8/8 = 1,
matching the per-element mean formula. -/
theorem C1_witness :
    1 ≤ 1 ∧
      score (List.ofFn (fun _ : Fin 1 => fp1)) (List.ofFn (fun _ : Fin 1 => fp0)) =
        (∑ p : Fin 1 × Fin 8, (fp1 p.2 - fp0 p.2) ^ 2) / ((1 * 8 : ℕ) : ℚ) :=
  ⟨le_refl 1, C1_score_is_per_element_mse 1 (le_refl 1) (fun _ => fp1) (fun _ => fp0)⟩

/-! Lemmas about lookup, filter and append for the store. -/

/-- Filtering out every pair keyed by id leaves nothing for lookup to find. -/
lemma lookup_filter_ne {β : Type} (id : String) :
    ∀ l : List (String × β), (l.filter (fun p => p.1 != id)).lookup id = none
  | [] => rfl
  | (k, v) :: t => by
    by_cases h : k = id
    · have hkb : (k != id) = false := by simp [h]
      simp [List.filter_cons, hkb, lookup_filter_ne id t]
    · have hkb : (k != id) = true := by simp [h]
      have hik : (id == k) = false := by simp [Ne.symm h]
      simp [List.filter_cons, hkb, List.lookup_cons, hik, lookup_filter_ne id t]

/-- Appending a fresh keyed pair makes lookup find it. -/
lemma lookup_append_single {β : Type} (a : String) (x : β) :
    ∀ l : List (String × β), l.lookup a = none → (l ++ [(a, x)]).lookup a = some x
  | [], _ => by simp [List.lookup_cons]
  | (k, v) :: t, h => by
    rw [List.lookup_cons] at h
    cases hak : (a == k) with
    | true => simp [hak] at h
    | false =>
      simp only [hak] at h
      have ht := lookup_append_single a x t h
      rw [List.cons_append, List.lookup_cons]
      simp [hak, ht]

/-- C3: after remove(id) (modelled from the spec, deleting the catalogue
record first and the backing file second) the catalogue does not contain id,
loading the sequence of id fails with a not-found error rather than
returning stale data, and already after the first deletion step the
catalogue does not contain id. -/
theorem C3_remove_deletes_record_and_file (db : DB) (id : String) :
    (removeVideo db id).metadata.lookup id = none ∧
      loadSequence (removeVideo db id) id = Except.error () ∧
      (removeCatalogueRecord db id).metadata.lookup id = none := by
  refine ⟨?_, ?_, ?_⟩
  · simp [removeVideo, removeFingerprintFile, removeCatalogueRecord, lookup_filter_ne]
  · simp [loadSequence, removeVideo, removeFingerprintFile, removeCatalogueRecord,
      lookup_filter_ne]
  · simp [removeCatalogueRecord, lookup_filter_ne]

/-- C8 counterexample: ingesting one nonempty frame list succeeds (the store
gains the record), yet add_video returns None, not the fresh id "id-1": the
Python function has no return statement on the success path. -/
theorem C8_counterexample :
    (addVideo db0 (some [gf0]) "id-1" "Clip A" "clip_a.mp4").2 = none ∧
      (addVideo db0 (some [gf0]) "id-1" "Clip A" "clip_a.mp4").2 ≠ some "id-1" := by
  constructor <;> simp [addVideo]

/-- C8 amended: for a source whose sampling and extraction yield at least one
frame, add_video stores the fingerprint sequence under the fresh id, appends
a catalogue record whose frame count is the sequence length, but returns
None rather than the id. -/
theorem C8_ingest_stores_but_returns_none (db : DB) (frames : List (GradFrame ℚ))
    (freshId vn vp : String) (hne : frames.length ≠ 0)
    (hfiles : db.files.lookup freshId = none)
    (hmeta : db.metadata.lookup freshId = none) :
    ((addVideo db (some frames) freshId vn vp).1.files.lookup freshId
        = some (extractFingerprint frames)) ∧
      ((addVideo db (some frames) freshId vn vp).1.metadata.lookup freshId
        = some { name := vn, original_path := vp,
                 frames := (extractFingerprint frames).length,
                 duration_sec := ((extractFingerprint frames).length : ℚ) / 10 }) ∧
      (addVideo db (some frames) freshId vn vp).2 = none := by
  refine ⟨?_, ?_, ?_⟩ <;> simp only [addVideo, hne, if_false, reduceIte]
  · exact lookup_append_single freshId _ db.files hfiles
  · exact lookup_append_single freshId _ db.metadata hmeta

/-- Witness for C8: ingesting one flat frame into the empty store satisfies
the hypotheses and yields the stored sequence, the record and a None return. -/
theorem C8_witness :
    ([gf0].length ≠ 0) ∧
      ((addVideo db0 (some [gf0]) "w8" "A" "a.mp4").1.files.lookup "w8"
        = some (extractFingerprint [gf0])) ∧
      ((addVideo db0 (some [gf0]) "w8" "A" "a.mp4").1.metadata.lookup "w8"
        = some { name := "A", original_path := "a.mp4",
                 frames := (extractFingerprint [gf0]).length,
                 duration_sec := ((extractFingerprint [gf0]).length : ℚ) / 10 }) ∧
      (addVideo db0 (some [gf0]) "w8" "A" "a.mp4").2 = none :=
  ⟨by simp, C8_ingest_stores_but_returns_none db0 [gf0] "w8" "A" "a.mp4"
    (by simp) rfl rfl⟩

/-- C9: a block whose gradient magnitude sum is zero (a perfectly flat,
uniform-intensity block) gets centroid 0.0, and the division branch is taken
only when the denominator is nonzero. -/
theorem C9_flat_block_centroid_zero (fr : GradFrame ℚ) (n m : ℕ) :
    (blockMagSum fr n m = 0 → blockCentroid fr n m = 0) ∧
      (blockMagSum fr n m ≠ 0 →
        blockCentroid fr n m = blockMagOriSum fr n m / blockMagSum fr n m) := by
  constructor <;> intro h <;> simp [blockCentroid, h]

/-- Witness for C9: a 4 x 8 uniform frame has magnitude sum zero on block
(0,0) and the theorem gives centroid 0. -/
theorem C9_witness :
    blockMagSum gf0 0 0 = 0 ∧ blockCentroid gf0 0 0 = 0 :=
  ⟨by simp [blockMagSum, gf0], (C9_flat_block_centroid_zero gf0 0 0).1 (by simp [blockMagSum, gf0])⟩

/-- A block centroid is a magnitude-weighted mean of the orientations, hence
bounded by any bound on the orientations when the weights are nonnegative. -/
lemma blockCentroid_bounds {α : Type} [LinearOrderedField α] [DecidableEq α]
    (fr : GradFrame α) (n m : ℕ) (B : α) (hB : 0 ≤ B)
    (hmag : ∀ y x, 0 ≤ fr.mag y x)
    (hori : ∀ y x, -B ≤ fr.ori y x ∧ fr.ori y x ≤ B) :
    -B ≤ blockCentroid fr n m ∧ blockCentroid fr n m ≤ B := by
  have hS0 : 0 ≤ blockMagSum fr n m :=
    Finset.sum_nonneg fun y _ => Finset.sum_nonneg fun x _ => hmag y x
  by_cases h : blockMagSum fr n m = 0
  · rw [blockCentroid, if_pos h]
    exact ⟨neg_nonpos_of_nonneg hB, hB⟩
  · rw [blockCentroid, if_neg h]
    have hSpos : 0 < blockMagSum fr n m := lt_of_le_of_ne hS0 (Ne.symm h)
    have hup : blockMagOriSum fr n m ≤ B * blockMagSum fr n m := by
      rw [blockMagOriSum, blockMagSum, Finset.mul_sum]
      refine Finset.sum_le_sum fun y _ => ?_
      rw [Finset.mul_sum]
      refine Finset.sum_le_sum fun x _ => ?_
      calc fr.mag y x * fr.ori y x ≤ fr.mag y x * B :=
            mul_le_mul_of_nonneg_left (hori y x).2 (hmag y x)
        _ = B * fr.mag y x := mul_comm _ _
    have hlo : -B * blockMagSum fr n m ≤ blockMagOriSum fr n m := by
      rw [blockMagOriSum, blockMagSum, Finset.mul_sum]
      refine Finset.sum_le_sum fun y _ => ?_
      rw [Finset.mul_sum]
      refine Finset.sum_le_sum fun x _ => ?_
      calc -B * fr.mag y x = fr.mag y x * -B := mul_comm _ _
        _ ≤ fr.mag y x * fr.ori y x :=
            mul_le_mul_of_nonneg_left (hori y x).1 (hmag y x)
    exact ⟨(le_div_iff₀ hSpos).mpr hlo, (div_le_iff₀ hSpos).mpr hup⟩

/-- C10: every component of a fingerprint vector lies in [-pi, pi] whenever
the per-pixel orientations lie in (-pi, pi] and the magnitudes are
nonnegative: each centroid is 0.0 for a degenerate block or a
magnitude-weighted mean of the orientations. -/
theorem C10_fingerprint_components_in_pi_range (fr : GradFrame ℝ)
    (hmag : ∀ y x, 0 ≤ fr.mag y x)
    (hori : ∀ y x, -Real.pi < fr.ori y x ∧ fr.ori y x ≤ Real.pi) (j : Fin 8) :
    -Real.pi ≤ frameFingerprint fr j ∧ frameFingerprint fr j ≤ Real.pi := by
  have h := blockCentroid_bounds fr (j.val / 4) (j.val % 4) Real.pi Real.pi_pos.le
    hmag (fun y x => ⟨(hori y x).1.le, (hori y x).2⟩)
  simpa [frameFingerprint] using h

/-- Witness for C10: the uniform real frame satisfies both hypotheses and its
first fingerprint component lies in [-pi, pi]. -/
theorem C10_witness :
    (∀ y x : ℕ, 0 ≤ gfR0.mag y x) ∧
      (-Real.pi ≤ frameFingerprint gfR0 0 ∧ frameFingerprint gfR0 0 ≤ Real.pi) :=
  ⟨fun _ _ => le_of_eq rfl,
    C10_fingerprint_components_in_pi_range gfR0 (fun _ _ => le_of_eq rfl)
      (fun _ _ => ⟨by simpa [gfR0] using neg_lt_zero.mpr Real.pi_pos,
        by simpa [gfR0] using Real.pi_pos.le⟩) 0⟩

/-! Lemmas about the early-exit sliding-window scan. -/

/-- A score that does not beat a running best which is itself not below the
cutoff is not below the cutoff. -/
lemma not_lt_cutoff_of_not_beats (s : ℚ) (best : Option Match)
    (h1 : ltLowest s best = false) (h2 : lowestLt best (1 / 100) = false) :
    ¬ s < 1 / 100 := by
  cases best with
  | none => simp [ltLowest] at h1
  | some m =>
    have h1' : m.score ≤ s := not_lt.mp (by simpa [ltLowest] using h1)
    have h2' : ¬ m.score < 1 / 100 := by simpa [lowestLt] using h2
    intro hs
    exact h2' (lt_of_le_of_lt h1' hs)

/-- When no offered window scores below the cutoff, the inner loop evaluates
every offered offset (no early break). -/
lemma scanTr_trace_all (n : String) (s q : List Fp) (l : List ℕ) :
    ∀ best : Option Match, (∀ i ∈ l, ¬ winScore s q i < 1 / 100) →
      (scanOffsetsTr n s q l best).2 = l := by
  induction l with
  | nil => intro best _; rfl
  | cons i rest ih =>
    intro best h
    have hi : ¬ winScore s q i < 1 / 100 := h i (List.mem_cons_self i rest)
    have hrest : ∀ j ∈ rest, ¬ winScore s q j < 1 / 100 :=
      fun j hj => h j (List.mem_cons_of_mem i hj)
    by_cases hlt : ltLowest (winScore s q i) best = true
    · simp only [scanOffsetsTr, hlt, if_true, if_neg hi]
      simp [ih _ hrest]
    · rw [Bool.not_eq_true] at hlt
      simp only [scanOffsetsTr, hlt, Bool.false_eq_true, if_false]
      simp [ih _ hrest]

/-- When no offered window scores below the cutoff, the running best stays
not below the cutoff through the inner loop. -/
lemma scanTr_best_not_lt (n : String) (s q : List Fp) (l : List ℕ) :
    ∀ best : Option Match, lowestLt best (1 / 100) = false →
      (∀ i ∈ l, ¬ winScore s q i < 1 / 100) →
      lowestLt (scanOffsetsTr n s q l best).1 (1 / 100) = false := by
  induction l with
  | nil => intro best hb _; exact hb
  | cons i rest ih =>
    intro best hb h
    have hi : ¬ winScore s q i < 1 / 100 := h i (List.mem_cons_self i rest)
    have hrest : ∀ j ∈ rest, ¬ winScore s q j < 1 / 100 :=
      fun j hj => h j (List.mem_cons_of_mem i hj)
    by_cases hlt : ltLowest (winScore s q i) best = true
    · simp only [scanOffsetsTr, hlt, if_true, if_neg hi]
      exact ih _ (by simpa [lowestLt] using hi) hrest
    · rw [Bool.not_eq_true] at hlt
      simp only [scanOffsetsTr, hlt, Bool.false_eq_true, if_false]
      exact ih _ hb hrest

/-- If some offered offset scores below the cutoff, the inner loop ends with
a running best below the cutoff. -/
lemma scanTr_hit (n : String) (s q : List Fp) (l : List ℕ) :
    ∀ best : Option Match, lowestLt best (1 / 100) = false →
      (∃ i ∈ l, winScore s q i < 1 / 100) →
      lowestLt (scanOffsetsTr n s q l best).1 (1 / 100) = true := by
  induction l with
  | nil =>
    intro best _ h
    obtain ⟨i, hi, _⟩ := h
    exact absurd hi (List.not_mem_nil i)
  | cons j rest ih =>
    intro best hb h
    by_cases hj : winScore s q j < 1 / 100
    · have hlt : ltLowest (winScore s q j) best = true := by
        cases best with
        | none => rfl
        | some m =>
          have : ¬ m.score < 1 / 100 := by simpa [lowestLt] using hb
          simp [ltLowest, lt_of_lt_of_le hj (not_lt.mp this)]
      simp only [scanOffsetsTr, hlt, if_true, if_pos hj]
      simp only [lowestLt, decide_eq_true_eq]
      exact hj
    · have hrest : ∃ i ∈ rest, winScore s q i < 1 / 100 := by
        obtain ⟨i, hi, hs⟩ := h
        rcases List.mem_cons.mp hi with rfl | hi'
        · exact absurd hs hj
        · exact ⟨i, hi', hs⟩
      by_cases hlt : ltLowest (winScore s q j) best = true
      · simp only [scanOffsetsTr, hlt, if_true, if_neg hj]
        exact ih _ (by simpa [lowestLt] using hj) hrest
      · rw [Bool.not_eq_true] at hlt
        simp only [scanOffsetsTr, hlt, Bool.false_eq_true, if_false]
        exact ih _ hb hrest

/-- Once an evaluated window scores below the cutoff, it is the last offset
the inner loop evaluates. -/
lemma scanTr_last (n : String) (s q : List Fp) (l : List ℕ) :
    ∀ best : Option Match, lowestLt best (1 / 100) = false →
      ∀ pre i suf, (scanOffsetsTr n s q l best).2 = pre ++ i :: suf →
        winScore s q i < 1 / 100 → suf = [] := by
  induction l with
  | nil =>
    intro best _ pre i suf htr _
    exact absurd htr.symm (List.append_ne_nil_of_right_ne_nil pre (List.cons_ne_nil i suf))
  | cons j rest ih =>
    intro best hb pre i suf htr hi
    by_cases hj : winScore s q j < 1 / 100
    · have hlt : ltLowest (winScore s q j) best = true := by
        cases best with
        | none => rfl
        | some m =>
          have : ¬ m.score < 1 / 100 := by simpa [lowestLt] using hb
          simp [ltLowest, lt_of_lt_of_le hj (not_lt.mp this)]
      simp only [scanOffsetsTr, hlt, if_true, if_pos hj] at htr
      cases pre with
      | nil =>
        simp only [List.nil_append, List.cons.injEq] at htr
        exact htr.2.symm
      | cons p pre' =>
        have := congrArg List.length htr
        simp at this
    · by_cases hlt : ltLowest (winScore s q j) best = true
      · simp only [scanOffsetsTr, hlt, if_true, if_neg hj] at htr
        cases pre with
        | nil =>
          simp only [List.nil_append, List.cons.injEq] at htr
          exact absurd (htr.1 ▸ hi) hj
        | cons p pre' =>
          simp only [List.cons_append, List.cons.injEq] at htr
          exact ih _ (by simpa [lowestLt] using hj) pre' i suf htr.2 hi
      · rw [Bool.not_eq_true] at hlt
        simp only [scanOffsetsTr, hlt, Bool.false_eq_true, if_false] at htr
        cases pre with
        | nil =>
          simp only [List.nil_append, List.cons.injEq] at htr
          exact absurd (htr.1 ▸ hi) hj
        | cons p pre' =>
          simp only [List.cons_append, List.cons.injEq] at htr
          exact ih _ hb pre' i suf htr.2 hi

/-- If an offset evaluated by the inner loop scored below the cutoff, the
loop ends with a running best below the cutoff. -/
lemma scanTr_mem_hit (n : String) (s q : List Fp) (l : List ℕ) :
    ∀ best : Option Match, lowestLt best (1 / 100) = false →
      ∀ i, i ∈ (scanOffsetsTr n s q l best).2 → winScore s q i < 1 / 100 →
        lowestLt (scanOffsetsTr n s q l best).1 (1 / 100) = true := by
  induction l with
  | nil =>
    intro best _ i hi _
    simp [scanOffsetsTr] at hi
  | cons j rest ih =>
    intro best hb i hi hsc
    by_cases hj : winScore s q j < 1 / 100
    · have hlt : ltLowest (winScore s q j) best = true := by
        cases best with
        | none => rfl
        | some m =>
          have : ¬ m.score < 1 / 100 := by simpa [lowestLt] using hb
          simp [ltLowest, lt_of_lt_of_le hj (not_lt.mp this)]
      simp only [scanOffsetsTr, hlt, if_true, if_pos hj]
      simp only [lowestLt, decide_eq_true_eq]
      exact hj
    · by_cases hlt : ltLowest (winScore s q j) best = true
      · simp only [scanOffsetsTr, hlt, if_true, if_neg hj] at hi ⊢
        rcases List.mem_cons.mp hi with rfl | hi'
        · exact absurd hsc hj
        · exact ih _ (by simpa [lowestLt] using hj) i hi' hsc
      · rw [Bool.not_eq_true] at hlt
        simp only [scanOffsetsTr, hlt, Bool.false_eq_true, if_false] at hi ⊢
        rcases List.mem_cons.mp hi with rfl | hi'
        · exact absurd hsc hj
        · exact ih _ hb i hi' hsc

/-- Every evaluated (video, offset) pair is tagged with a video index at or
after the starting index. -/
lemma searchGoTr_tag_lb (q : List Fp) :
    ∀ (es : List Entry) (v0 : ℕ) (best : Option Match) (p : ℕ × ℕ),
      p ∈ (searchGoTr q es v0 best).2 → v0 ≤ p.1 := by
  intro es
  induction es with
  | nil =>
    intro v0 best p hp
    simp [searchGoTr] at hp
  | cons e0 rest ih =>
    intro v0 best p hp
    cases hs0 : e0.seq with
    | none => simp [searchGoTr, hs0] at hp
    | some dbFps =>
      by_cases hlen : dbFps.length < q.length
      · simp only [searchGoTr, hs0, if_pos hlen] at hp
        have := ih (v0 + 1) best p hp
        omega
      · simp only [searchGoTr, hs0, if_neg hlen] at hp
        by_cases hbreak :
            lowestLt (scanOffsetsTr e0.name dbFps q
              (List.range (dbFps.length - q.length + 1)) best).1 (1 / 100) = true
        · rw [if_pos hbreak] at hp
          obtain ⟨a, _, ha⟩ := List.mem_map.mp hp
          subst ha
          exact le_refl v0
        · rw [if_neg hbreak] at hp
          rcases List.mem_append.mp hp with hleft | hright
          · obtain ⟨a, _, ha⟩ := List.mem_map.mp hleft
            subst ha
            exact le_refl v0
          · have := ih (v0 + 1) _ p hright
            omega

/-- Splitting a concatenation around a marked element that is not in the
left part. -/
lemma append_split_of_not_mem {α : Type} (x : α) :
    ∀ (l1 l2 pre suf : List α), l1 ++ l2 = pre ++ x :: suf → x ∉ l1 →
      ∃ pre2, l2 = pre2 ++ x :: suf ∧ pre = l1 ++ pre2 := by
  intro l1
  induction l1 with
  | nil =>
    intro l2 pre suf h _
    exact ⟨pre, by simpa using h, by simp⟩
  | cons a t ih =>
    intro l2 pre suf h hx
    cases pre with
    | nil =>
      simp only [List.cons_append, List.nil_append, List.cons.injEq] at h
      exact absurd (h.1 ▸ List.mem_cons_self a t) hx
    | cons p pre' =>
      simp only [List.cons_append, List.cons.injEq] at h
      obtain ⟨rfl, h2⟩ := h
      have hx' : x ∉ t := fun hm => hx (List.mem_cons_of_mem a hm)
      obtain ⟨pre2, h3, h4⟩ := ih l2 pre' suf h2 hx'
      exact ⟨pre2, h3, by simp [h4]⟩

/-- Splitting a mapped list around a marked element. -/
lemma map_split {α β : Type} (f : α → β) :
    ∀ (l : List α) (pre : List β) (x : β) (suf : List β),
      l.map f = pre ++ x :: suf →
      ∃ pre1 x1 suf1, l = pre1 ++ x1 :: suf1 ∧ pre1.map f = pre ∧
        f x1 = x ∧ suf1.map f = suf := by
  intro l
  induction l with
  | nil =>
    intro pre x suf h
    cases pre <;> simp at h
  | cons a t ih =>
    intro pre x suf h
    cases pre with
    | nil =>
      simp only [List.map_cons, List.nil_append, List.cons.injEq] at h
      exact ⟨[], a, t, rfl, rfl, h.1, h.2⟩
    | cons p pre' =>
      simp only [List.map_cons, List.cons_append, List.cons.injEq] at h
      obtain ⟨pre1, x1, suf1, h1, h2, h3, h4⟩ := ih pre' x suf h.2
      exact ⟨a :: pre1, x1, suf1, by simp [h1], by simp [h.1, h2], h3, h4⟩

/-- Core of C5: if search evaluates a window that scores below the
near-perfect cutoff, that evaluation is the last one in the whole trace:
no later offset of the same video and no later video is evaluated. -/
lemma searchGoTr_subcutoff_stops (q : List Fp) :
    ∀ (es : List Entry) (v0 : ℕ) (best : Option Match),
      lowestLt best (1 / 100) = false →
      ∀ (v i : ℕ) (e : Entry) (sv : List Fp),
        es.get? (v - v0) = some e → v0 ≤ v → e.seq = some sv →
        winScore sv q i < 1 / 100 →
        ∀ pre suf, (searchGoTr q es v0 best).2 = pre ++ (v, i) :: suf → suf = [] := by
  intro es
  induction es with
  | nil =>
    intro v0 best _ v i e sv hv _ _ _ pre suf _
    simp at hv
  | cons e0 rest ih =>
    intro v0 best hb v i e sv hv hv0 hseq hsc pre suf htr
    cases hs0 : e0.seq with
    | none =>
      simp only [searchGoTr, hs0] at htr
      exact absurd htr.symm
        (List.append_ne_nil_of_right_ne_nil pre (List.cons_ne_nil _ suf))
    | some dbFps =>
      by_cases hlen : dbFps.length < q.length
      · simp only [searchGoTr, hs0, if_pos hlen] at htr
        by_cases hvv : v = v0
        · subst hvv
          have hmem : (v, i) ∈ (searchGoTr q rest (v + 1) best).2 := by
            rw [htr]
            exact List.mem_append.mpr (Or.inr (List.mem_cons_self _ _))
          have := searchGoTr_tag_lb q rest (v + 1) best (v, i) hmem
          omega
        · have hv' : rest.get? (v - (v0 + 1)) = some e := by
            rw [show v - v0 = (v - (v0 + 1)) + 1 from by omega,
              List.get?_cons_succ] at hv
            exact hv
          exact ih (v0 + 1) best hb v i e sv hv' (by omega) hseq hsc pre suf htr
      · simp only [searchGoTr, hs0, if_neg hlen] at htr
        by_cases hbreak :
            lowestLt (scanOffsetsTr e0.name dbFps q
              (List.range (dbFps.length - q.length + 1)) best).1 (1 / 100) = true
        · rw [if_pos hbreak] at htr
          obtain ⟨pre1, x1, suf1, hl, _, hx, hsuf⟩ :=
            map_split _ _ pre (v, i) suf htr
          have hveq : v0 = v ∧ x1 = i := by
            simpa [Prod.ext_iff] using hx
          obtain ⟨rfl, rfl⟩ := hveq
          have he : e0 = e := by
            rw [Nat.sub_self, List.get?_cons_zero] at hv
            simpa using hv
          have hsv : sv = dbFps := by
            rw [← he] at hseq
            simpa using hseq.symm.trans hs0
          have := scanTr_last e0.name dbFps q
            (List.range (dbFps.length - q.length + 1)) best hb pre1 x1 suf1 hl
            (hsv ▸ hsc)
          rw [← hsuf, this]
          rfl
        · rw [if_neg hbreak] at htr
          dsimp only at htr
          have hbreak' :
              lowestLt (scanOffsetsTr e0.name dbFps q
                (List.range (dbFps.length - q.length + 1)) best).1 (1 / 100) = false :=
            Bool.not_eq_true _ ▸ hbreak
          by_cases hvv : v = v0
          · subst hvv
            have he : e0 = e := by
              rw [Nat.sub_self, List.get?_cons_zero] at hv
              simpa using hv
            have hsv : sv = dbFps := by
              rw [← he] at hseq
              simpa using hseq.symm.trans hs0
            have hmem : (v, i) ∈
                (scanOffsetsTr e0.name dbFps q
                  (List.range (dbFps.length - q.length + 1)) best).2.map
                  (fun j => (v, j)) ++ (searchGoTr q rest (v + 1)
                    (scanOffsetsTr e0.name dbFps q
                      (List.range (dbFps.length - q.length + 1)) best).1).2 := by
              rw [htr]
              exact List.mem_append.mpr (Or.inr (List.mem_cons_self _ _))
            rcases List.mem_append.mp hmem with hleft | hright
            · obtain ⟨a, ha, hpa⟩ := List.mem_map.mp hleft
              have hai : a = i := by simpa [Prod.ext_iff] using hpa
              subst hai
              have := scanTr_mem_hit e0.name dbFps q
                (List.range (dbFps.length - q.length + 1)) best hb a ha (hsv ▸ hsc)
              rw [hbreak'] at this
              exact absurd this Bool.false_ne_true
            · have := searchGoTr_tag_lb q rest (v + 1) _ (v, i) hright
              omega
          · have hnot : (v, i) ∉
                (scanOffsetsTr e0.name dbFps q
                  (List.range (dbFps.length - q.length + 1)) best).2.map
                  (fun j => (v0, j)) := by
              intro hm
              obtain ⟨a, _, ha⟩ := List.mem_map.mp hm
              have hva : v0 = v ∧ a = i := by simpa [Prod.ext_iff] using ha
              exact hvv hva.1.symm
            obtain ⟨pre2, h2, _⟩ :=
              append_split_of_not_mem (v, i) _ _ pre suf htr hnot
            have hv' : rest.get? (v - (v0 + 1)) = some e := by
              rw [show v - v0 = (v - (v0 + 1)) + 1 from by omega,
                List.get?_cons_succ] at hv
              exact hv
            exact ih (v0 + 1) _ hbreak' v i e sv hv' (by omega) hseq hsc pre2 suf h2

/-- Core of the amended C2: if some stored readable sequence contains a
window scoring below the cutoff, the scan ends normally with a running best
below the cutoff. -/
lemma searchGoTr_hit (q : List Fp) :
    ∀ (es : List Entry) (v0 : ℕ) (best : Option Match),
      lowestLt best (1 / 100) = false →
      (∀ e ∈ es, e.seq ≠ none) →
      ∀ (v i : ℕ) (e : Entry) (sv : List Fp),
        es.get? v = some e → e.seq = some sv → i + q.length ≤ sv.length →
        winScore sv q i < 1 / 100 →
        ∃ b, (searchGoTr q es v0 best).1 = Except.ok b ∧
          lowestLt b (1 / 100) = true := by
  intro es
  induction es with
  | nil =>
    intro v0 best _ _ v i e sv hv _ _ _
    simp at hv
  | cons e0 rest ih =>
    intro v0 best hb hread v i e sv hv hseq hik hsc
    obtain ⟨dbFps, hs0⟩ : ∃ s, e0.seq = some s := by
      cases h : e0.seq with
      | none => exact absurd h (hread e0 (List.mem_cons_self e0 rest))
      | some s => exact ⟨s, rfl⟩
    have hread' : ∀ e' ∈ rest, e'.seq ≠ none :=
      fun e' he' => hread e' (List.mem_cons_of_mem e0 he')
    by_cases hlen : dbFps.length < q.length
    · cases v with
      | zero =>
        have he : e0 = e := by simpa using hv
        have hsv : sv = dbFps := by
          rw [← he] at hseq
          simpa using hseq.symm.trans hs0
        rw [hsv] at hik
        omega
      | succ v' =>
        simp only [searchGoTr, hs0, if_pos hlen]
        exact ih (v0 + 1) best hb hread' v' i e sv (by simpa using hv) hseq hik hsc
    · simp only [searchGoTr, hs0, if_neg hlen]
      by_cases hbreak :
          lowestLt (scanOffsetsTr e0.name dbFps q
            (List.range (dbFps.length - q.length + 1)) best).1 (1 / 100) = true
      · rw [if_pos hbreak]
        exact ⟨_, rfl, hbreak⟩
      · rw [if_neg hbreak]
        dsimp only
        cases v with
        | zero =>
          have he : e0 = e := by simpa using hv
          have hsv : sv = dbFps := by
            rw [← he] at hseq
            simpa using hseq.symm.trans hs0
          rw [hsv] at hik hsc
          have hirange : i ∈ List.range (dbFps.length - q.length + 1) :=
            List.mem_range.mpr (by omega)
          have := scanTr_hit e0.name dbFps q
            (List.range (dbFps.length - q.length + 1)) best hb ⟨i, hirange, hsc⟩
          exact absurd this hbreak
        | succ v' =>
          exact ih (v0 + 1) _ (Bool.not_eq_true _ ▸ hbreak) hread' v' i e sv
            (by simpa using hv) hseq hik hsc

/-- Core of C6: with no window anywhere below the cutoff and every record
readable, every valid offset of every sufficiently long stored sequence is
evaluated. -/
lemma searchGoTr_complete (q : List Fp) :
    ∀ (es : List Entry) (v0 : ℕ) (best : Option Match),
      lowestLt best (1 / 100) = false →
      (∀ e ∈ es, e.seq ≠ none) →
      (∀ (v : ℕ) (e : Entry) (sv : List Fp) (i : ℕ), es.get? v = some e →
        e.seq = some sv → i + q.length ≤ sv.length →
        ¬ winScore sv q i < 1 / 100) →
      ∀ (v i : ℕ) (e : Entry) (sv : List Fp),
        es.get? v = some e → e.seq = some sv → i + q.length ≤ sv.length →
        (v0 + v, i) ∈ (searchGoTr q es v0 best).2 := by
  intro es
  induction es with
  | nil =>
    intro v0 best _ _ _ v i e sv hv _ _
    simp at hv
  | cons e0 rest ih =>
    intro v0 best hb hread hnosub v i e sv hv hseq hik
    obtain ⟨dbFps, hs0⟩ : ∃ s, e0.seq = some s := by
      cases h : e0.seq with
      | none => exact absurd h (hread e0 (List.mem_cons_self e0 rest))
      | some s => exact ⟨s, rfl⟩
    have hread' : ∀ e' ∈ rest, e'.seq ≠ none :=
      fun e' he' => hread e' (List.mem_cons_of_mem e0 he')
    have hnosub' : ∀ (v : ℕ) (e' : Entry) (sv' : List Fp) (i' : ℕ),
        rest.get? v = some e' → e'.seq = some sv' →
        i' + q.length ≤ sv'.length → ¬ winScore sv' q i' < 1 / 100 :=
      fun v e' sv' i' hv' => hnosub (v + 1) e' sv' i' (by simpa using hv')
    by_cases hlen : dbFps.length < q.length
    · cases v with
      | zero =>
        have he : e0 = e := by simpa using hv
        have hsv : sv = dbFps := by
          rw [← he] at hseq
          simpa using hseq.symm.trans hs0
        rw [hsv] at hik
        omega
      | succ v' =>
        simp only [searchGoTr, hs0, if_pos hlen]
        have := ih (v0 + 1) best hb hread' hnosub' v' i e sv
          (by simpa using hv) hseq hik
        rw [show v0 + (v' + 1) = (v0 + 1) + v' from by omega]
        exact this
    · have hall : ∀ j ∈ List.range (dbFps.length - q.length + 1),
          ¬ winScore dbFps q j < 1 / 100 := by
        intro j hj
        exact hnosub 0 e0 dbFps j rfl hs0 (by
          have := List.mem_range.mp hj
          omega)
      have htrace := scanTr_trace_all e0.name dbFps q
        (List.range (dbFps.length - q.length + 1)) best hall
      have hbest := scanTr_best_not_lt e0.name dbFps q
        (List.range (dbFps.length - q.length + 1)) best hb hall
      simp only [searchGoTr, hs0, if_neg hlen]
      rw [if_neg (by rw [hbest]; exact Bool.false_ne_true)]
      dsimp only
      cases v with
      | zero =>
        have he : e0 = e := by simpa using hv
        have hsv : sv = dbFps := by
          rw [← he] at hseq
          simpa using hseq.symm.trans hs0
        rw [hsv] at hik
        refine List.mem_append.mpr (Or.inl (List.mem_map.mpr ⟨i, ?_, by simp⟩))
        rw [htrace]
        exact List.mem_range.mpr (by omega)
      | succ v' =>
        have := ih (v0 + 1) _ hbest hread' hnosub' v' i e sv
          (by simpa using hv) hseq hik
        rw [show v0 + (v' + 1) = (v0 + 1) + v' from by omega]
        exact List.mem_append.mpr (Or.inr this)

/-! Further concrete catalogues for witnesses. -/

/-- A catalogue whose first record references an unreadable fingerprint
file. -/
def badEntry : Entry := { name := "Bad", seq := none }

/-- A readable one-frame catalogue record. -/
def goodEntry : Entry := { name := "Good", seq := some [fp0] }

/-- A catalogue with one two-frame video whose second window matches fp0. -/
def entries5 : List Entry := [{ name := "A", seq := some [fp1, fp0] }]

/-- A catalogue with one two-frame video with no window below the cutoff for
the query [fp0]. -/
def entries6 : List Entry := [{ name := "A", seq := some [fp1, fp1] }]

/-- A catalogue with one one-frame video whose only window scores exactly
2/5 against the query [fp0]. -/
def entriesB : List Entry := [{ name := "B", seq := some [fpB] }]

/-- The best match found in entriesB for the query [fp0]. -/
def mB : Match := { video := "B", startTime := 0, score := 2 / 5 }

set_option maxRecDepth 8000 in
/-- C2 counterexample: for the synthetic static-gray 50-frame video queried
with its frames 10 to 20, search returns the match at start offset 0.0
seconds, not 1.0: every window of the static video scores 0, so the scan
breaks at offset 0 before ever reaching offset 10. -/
theorem C2_counterexample :
    search grayEntries grayQuery (2 / 5) =
      Except.ok (some { video := "Clip A", startTime := 0, score := 0 }) ∧
      ({ video := "Clip A", startTime := 0, score := 0 } : Match).startTime ≠ 1 := by
  constructor
  · norm_num [search, Except.map, searchBest, searchGoTr, scanOffsetsTr, winScore,
      window, score, sqDiffTotal, rowSqDiff, ltLowest, lowestLt, grayEntries,
      grayQuery, fp0, List.range_succ_eq_map, List.replicate, Fin.sum_univ_eight]
  · norm_num

/-- C2 amended: searching a stored readable sequence with one of its own
length-K sub-windows (K >= 1) under the default threshold returns a match
whose score is strictly below the near-perfect cutoff 0.01 (approximately
0), but the reported start offset is that of the first window to drop below
the cutoff, which need not be the true offset of the queried sub-window. -/
theorem C2_self_match_near_zero_score (entries : List Entry) (q : List Fp)
    (v i K : ℕ) (e : Entry) (sv : List Fp)
    (hread : ∀ e' ∈ entries, e'.seq ≠ none)
    (hv : entries.get? v = some e) (hseq : e.seq = some sv)
    (_hK : 1 ≤ K) (hiK : i + K ≤ sv.length) (hq : q = window sv i K) :
    ∃ m : Match, search entries q (2 / 5) = Except.ok (some m) ∧
      m.score < 1 / 100 := by
  have hqlen : q.length = K := by rw [hq]; exact length_window sv i K hiK
  have hscore : winScore sv q i < 1 / 100 := by
    rw [winScore, hqlen, ← hq, score_self]
    norm_num
  obtain ⟨b, hok, hblt⟩ := searchGoTr_hit q entries 0 none rfl hread v i e sv
    hv hseq (by rw [hqlen]; exact hiK) hscore
  cases b with
  | none => simp [lowestLt] at hblt
  | some m =>
    have hm : m.score < 1 / 100 := by simpa [lowestLt] using hblt
    refine ⟨m, ?_, hm⟩
    rw [search, searchBest, hok]
    simp [Except.map, if_pos (lt_trans hm (by norm_num : (1 : ℚ) / 100 < 2 / 5))]

/-- Witness for the amended C2: the static-gray catalogue queried with its
own frames 10 to 20 satisfies every hypothesis and yields a sub-cutoff
match. -/
theorem C2_witness :
    (10 + 10 ≤ (List.replicate 50 fp0).length) ∧
      ∃ m : Match, search grayEntries grayQuery (2 / 5) = Except.ok (some m) ∧
        m.score < 1 / 100 :=
  ⟨by simp, C2_self_match_near_zero_score grayEntries grayQuery 0 10 10
    { name := "Clip A", seq := some (List.replicate 50 fp0) }
    (List.replicate 50 fp0)
    (by intro e' he'; simp [grayEntries] at he'; subst he'; simp)
    rfl rfl (by norm_num) (by simp) rfl⟩

/-- C4: a catalogue record whose fingerprint file cannot be read makes the
whole search abort with an error instead of being skipped: with the
unreadable record first, search errors, while the same search over only the
readable record returns its match. -/
theorem C4_missing_file_aborts_search :
    search [badEntry, goodEntry] [fp0] (2 / 5) = Except.error () ∧
      search [goodEntry] [fp0] (2 / 5) =
        Except.ok (some { video := "Good", startTime := 0, score := 0 }) := by
  constructor
  · rfl
  · norm_num [search, Except.map, searchBest, searchGoTr, scanOffsetsTr, winScore,
      window, score, sqDiffTotal, rowSqDiff, ltLowest, lowestLt, goodEntry, fp0,
      List.range_succ_eq_map, Fin.sum_univ_eight]

/-- C5: the early-exit policy: once search evaluates a window of video v at
offset i scoring strictly below 0.01, that evaluation is the last of the
whole search trace: no later offset of video v and no later video is
evaluated. -/
theorem C5_early_exit_stops_search (entries : List Entry) (q : List Fp)
    (v i : ℕ) (e : Entry) (sv : List Fp)
    (hv : entries.get? v = some e) (hseq : e.seq = some sv)
    (hscore : winScore sv q i < 1 / 100)
    (pre suf : List (ℕ × ℕ))
    (htr : searchTrace entries q = pre ++ (v, i) :: suf) : suf = [] :=
  searchGoTr_subcutoff_stops q entries 0 none rfl v i e sv
    (by simpa using hv) (Nat.zero_le v) hseq hscore pre suf htr

/-- Witness for C5: in entries5 with query [fp0], the scan evaluates offsets
0 then 1; offset 1 scores 0 < 0.01 and is indeed the final trace element. -/
theorem C5_witness :
    winScore [fp1, fp0] [fp0] 1 < 1 / 100 ∧
      searchTrace entries5 [fp0] = [(0, 0)] ++ (0, 1) :: [] ∧
      ([] : List (ℕ × ℕ)) = [] := by
  have hsc : winScore [fp1, fp0] [fp0] 1 < 1 / 100 := by
    norm_num [winScore, window, score, sqDiffTotal, rowSqDiff, fp0, fp1,
      Fin.sum_univ_eight]
  have htr : searchTrace entries5 [fp0] = [(0, 0)] ++ (0, 1) :: [] := by
    norm_num [searchTrace, searchGoTr, scanOffsetsTr, winScore, window, score,
      sqDiffTotal, rowSqDiff, ltLowest, lowestLt, entries5, fp0, fp1,
      List.range_succ_eq_map, Fin.sum_univ_eight]
  exact ⟨hsc, htr, C5_early_exit_stops_search entries5 [fp0] 0 1
    { name := "A", seq := some [fp1, fp0] } [fp1, fp0] rfl rfl hsc
    [(0, 0)] [] htr⟩

/-- C6: when no window of any stored readable sequence scores below 0.01,
search evaluates every offset i with i + K within bounds of every stored
sequence: no record and no offset is skipped. -/
theorem C6_no_early_exit_scans_everything (entries : List Entry) (q : List Fp)
    (hread : ∀ e ∈ entries, e.seq ≠ none)
    (hnosub : ∀ (v : ℕ) (e : Entry) (sv : List Fp) (i : ℕ),
      entries.get? v = some e → e.seq = some sv →
      i + q.length ≤ sv.length → ¬ winScore sv q i < 1 / 100)
    (v i : ℕ) (e : Entry) (sv : List Fp)
    (hv : entries.get? v = some e) (hseq : e.seq = some sv)
    (hik : i + q.length ≤ sv.length) :
    (v, i) ∈ searchTrace entries q := by
  have := searchGoTr_complete q entries 0 none rfl hread hnosub v i e sv hv hseq hik
  simpa using this

/-- Witness for C6: in entries6 with query [fp0] every window scores 1, so
both offsets of the single video are evaluated; offset 1 is in the trace. -/
theorem C6_witness :
    (1 + ([fp0] : List Fp).length ≤ ([fp1, fp1] : List Fp).length) ∧
      (0, 1) ∈ searchTrace entries6 [fp0] := by
  have hnosub : ∀ (v : ℕ) (e : Entry) (sv : List Fp) (i : ℕ),
      entries6.get? v = some e → e.seq = some sv →
      i + ([fp0] : List Fp).length ≤ sv.length →
      ¬ winScore sv [fp0] i < 1 / 100 := by
    intro v e sv i hv hseq hik
    match v with
    | 0 =>
      simp [entries6] at hv
      rw [← hv] at hseq
      simp at hseq
      subst hseq
      simp at hik
      interval_cases i <;>
        norm_num [winScore, window, score, sqDiffTotal, rowSqDiff, fp0, fp1,
          Fin.sum_univ_eight]
    | v' + 1 => simp [entries6] at hv
  refine ⟨by simp, ?_⟩
  exact C6_no_early_exit_scans_everything entries6 [fp0]
    (by intro e' he'; simp [entries6] at he'; subst he'; simp)
    hnosub 0 1 { name := "A", seq := some [fp1, fp1] } [fp1, fp1] rfl rfl (by simp)

/-- C7: search returns a match exactly when a best match exists and its
score is strictly below the caller-supplied threshold; at an exactly equal
score no match is returned. -/
theorem C7_match_iff_strictly_below_threshold (entries : List Entry)
    (q : List Fp) (t : ℚ) (best : Option Match)
    (hb : searchBest entries q = Except.ok best) :
    ∀ m : Match, search entries q t = Except.ok (some m) ↔
      best = some m ∧ m.score < t := by
  intro m
  rw [search, hb]
  cases best with
  | none => simp [Except.map]
  | some m' =>
    by_cases hs : m'.score < t
    · simp only [Except.map, if_pos hs]
      constructor
      · intro h
        have h' : m' = m := by simpa using h
        subst h'
        exact ⟨rfl, hs⟩
      · rintro ⟨hm, _⟩
        have h' : m' = m := by simpa using hm
        subst h'
        rfl
    · simp only [Except.map, if_neg hs]
      constructor
      · intro h
        simp at h
      · rintro ⟨hm, hlt⟩
        have h' : m' = m := by simpa using hm
        subst h'
        exact absurd hlt hs

/-- Witness for C7 at the exact threshold boundary: the single window of
entriesB scores exactly 2/5 against [fp0], and with threshold 2/5 the
returned-match equivalence degenerates to a false right-hand side, so no
match is returned. -/
theorem C7_witness :
    searchBest entriesB [fp0] = Except.ok (some mB) ∧
      (search entriesB [fp0] (2 / 5) = Except.ok (some mB) ↔
        some mB = some mB ∧ mB.score < 2 / 5) := by
  have hv2 : ((2 : Fin 8) : ℕ) = 2 := by decide
  have hv3 : ((3 : Fin 8) : ℕ) = 3 := by decide
  have hv4 : ((4 : Fin 8) : ℕ) = 4 := by decide
  have hv5 : ((5 : Fin 8) : ℕ) = 5 := by decide
  have hv6 : ((6 : Fin 8) : ℕ) = 6 := by decide
  have hv7 : ((7 : Fin 8) : ℕ) = 7 := by decide
  have hb : searchBest entriesB [fp0] = Except.ok (some mB) := by
    norm_num [searchBest, searchGoTr, scanOffsetsTr, winScore, window, score,
      sqDiffTotal, rowSqDiff, ltLowest, lowestLt, entriesB, mB, fpB, fp0,
      List.range_succ_eq_map, Fin.sum_univ_eight, hv2, hv3, hv4, hv5, hv6, hv7]
  exact ⟨hb, C7_match_iff_strictly_below_threshold entriesB [fp0] (2 / 5)
    (some mB) hb mB⟩

end VFDigital
